import Mathlib

/-!
# Verification of `scripts/audits/audit-documentation.py`

A shallow embedding of the documentation-coverage auditor.  The script scans a
CSS file for semantic component class selectors and an HTML file for container
tags carrying an `id` attribute, pairs components with sections by a fixed
naming convention, and reports undocumented components and stale sections.

The two regular expressions of the source are embedded as executable scanners
over `List Char`, faithful to Python `re.finditer` semantics (leftmost match,
resume after each match, greedy quantifiers with backtracking where it can
matter).  Character classes `\w` and `\s` are modelled in their ASCII
restriction.  `re.MULTILINE` on the CSS pattern is a no-op (the pattern has no
anchors) and is not modelled.
-/

namespace AuditDoc

/-- ASCII restriction of Python `\w`: letters, digits, underscore. -/
def isWordChar (c : Char) : Bool :=
  (('a' ≤ c) && (c ≤ 'z')) || (('A' ≤ c) && (c ≤ 'Z')) || (('0' ≤ c) && (c ≤ '9')) || (c = '_')

/-- The character class `[\w-]` of the CSS component pattern. -/
def isWordHyphenChar (c : Char) : Bool :=
  isWordChar c || (c = '-')

/-- ASCII restriction of Python `\s`: space, tab, newline, carriage return,
vertical tab, form feed. -/
def isPySpaceChar (c : Char) : Bool :=
  c.toNat = 32 || c.toNat = 9 || c.toNat = 10 || c.toNat = 13 || c.toNat = 11 || c.toNat = 12

/-- Python's substring test `needle in hay` on character lists. -/
def listContains (needle : List Char) : List Char → Bool
  | [] => needle.isEmpty
  | c :: rest => needle.isPrefixOf (c :: rest) || listContains needle rest

/-- Python string comparison `a <= b`: lexicographic by code point, a proper
prefix compares smaller. -/
def lexLe : List Char → List Char → Bool
  | [], _ => true
  | _ :: _, [] => false
  | a :: as, b :: bs => (a < b : Bool) || ((a = b : Bool) && lexLe as bs)

/-- Insertion step of the sort modelling Python `sorted`. -/
def insertLexLe (x : List Char) : List (List Char) → List (List Char)
  | [] => [x]
  | y :: ys => if lexLe x y then x :: y :: ys else y :: insertLexLe x ys

/-- Model of Python `sorted` on a list of strings (insertion sort; the order is
total and antisymmetric, so any sort yields the same sequence). -/
def sortLex : List (List Char) → List (List Char)
  | [] => []
  | x :: xs => insertLexLe x (sortLex xs)

/-- Boolean sortedness checker for `lexLe`. -/
def sortedLex : List (List Char) → Bool
  | [] => true
  | [_] => true
  | x :: y :: rest => lexLe x y && sortedLex (y :: rest)

/-- Python string comparison `a <= b` at the `String` level. -/
def strLe (a b : String) : Bool :=
  lexLe a.toList b.toList

/-- Boolean sortedness checker for `strLe`. -/
def sortedStr : List String → Bool
  | [] => true
  | [_] => true
  | x :: y :: rest => strLe x y && sortedStr (y :: rest)

/-- First-occurrence deduplication, modelling the
`if name not in seen: seen.append(name)` idiom of the source. -/
def dedupAcc (seen : List (List Char)) : List (List Char) → List (List Char)
  | [] => []
  | x :: xs => if seen.contains x then dedupAcc seen xs else x :: dedupAcc (x :: seen) xs

/-- Python `s.split('-')` on character lists (accumulator is reversed). -/
def splitDashAux (cur : List Char) : List Char → List (List Char)
  | [] => [cur.reverse]
  | '-' :: rest => cur.reverse :: splitDashAux [] rest
  | c :: rest => splitDashAux (c :: cur) rest

/-- Python `s.split('-')`. -/
def splitDash (s : List Char) : List (List Char) :=
  splitDashAux [] s

end AuditDoc

namespace AuditDoc

/-- The alternation of the CSS component pattern
`\.((btn|card|...|footer)[\w-]*)\s*\{`, in source order. -/
def componentAlternatives : List (List Char) :=
  ["btn", "card", "modal", "token", "badge", "form", "collection", "empty-state",
   "progress", "profile", "guideline", "table", "nav", "hero", "footer"].map String.toList

/--
Attempt of the CSS pattern at a position just after a literal `.`.

Every alternative consists of `[\w-]` characters, so an alternative matches the
input exactly when it is a prefix of the maximal `[\w-]` run; whichever
alternative matched, the greedy `[\w-]*` always extends group 1 to the end of
that run, and shrinking it can never help (`\s*\{` cannot start on a `[\w-]`
character).  Hence group 1 is the full run whenever some alternative is a
prefix of it and the run is followed by `\s*` and `{`.

Returns the group-1 text and the remaining input after the `{`.
-/
def cssMatchAfterDot (s : List Char) : Option (List Char × List Char) :=
  if componentAlternatives.any (fun a => a.isPrefixOf (s.takeWhile isWordHyphenChar)) then
    match (s.dropWhile isWordHyphenChar).dropWhile isPySpaceChar with
    | '{' :: rest2 => some (s.takeWhile isWordHyphenChar, rest2)
    | _ => none
  else none

/-- `re.finditer` loop for the CSS component pattern: leftmost match, resume
after the matched `{`.  Fuel-indexed structural recursion; each step consumes
at least one character, so fuel equal to the input length suffices. -/
def cssFindAllF : Nat → List Char → List (List Char)
  | 0, _ => []
  | _ + 1, [] => []
  | fuel + 1, c :: rest =>
    if c = '.' then
      match cssMatchAfterDot rest with
      | some (run, after) => run :: cssFindAllF fuel after
      | none => cssFindAllF fuel rest
    else cssFindAllF fuel rest

/-- The `important_variants` allow-list of the source, verbatim. -/
def important_variants : List (List Char) :=
  ["btn-primary", "btn-secondary", "btn-tertiary", "btn-icon",
   "btn-sm", "btn-md", "btn-lg", "btn-inline",
   "card-showcase",
   "badge-showcase", "badge-group",
   "table-responsive",
   "modal-dialog", "modal-content",
   "form-group", "form-control",
   "progress-bar", "progress-container"].map String.toList

/-- The secondary allow-list `['empty-state', 'profile-card']` of the source. -/
def secondaryBases : List (List Char) :=
  ["empty-state", "profile-card"].map String.toList

/-- The per-component filter of `extract_semantic_components`: keep names with
no hyphen, names on the `important_variants` list, and two-part names whose
`split('-')[0]` is on the secondary list. -/
def keepComponent (comp : List Char) : Bool :=
  let parts := splitDash comp
  if parts.length = 1 then true
  else if important_variants.contains comp then true
  else secondaryBases.contains (parts.headD []) && parts.length = 2

/-- `extract_semantic_components` on character lists: scan, first-occurrence
dedup, filter, then `sorted(list(set(...)))`. -/
def extractSemanticComponentsL (css : List Char) : List (List Char) :=
  sortLex (dedupAcc [] ((dedupAcc [] (cssFindAllF css.length css)).filter keepComponent))

/-- `extract_semantic_components`. -/
def extract_semantic_components (css : String) : List String :=
  (extractSemanticComponentsL css.toList).map String.mk

/-- The ASCII upper/lower case pairs. -/
def lowerPairs : List (Char × Char) :=
  [('A', 'a'), ('B', 'b'), ('C', 'c'), ('D', 'd'), ('E', 'e'), ('F', 'f'),
   ('G', 'g'), ('H', 'h'), ('I', 'i'), ('J', 'j'), ('K', 'k'), ('L', 'l'),
   ('M', 'm'), ('N', 'n'), ('O', 'o'), ('P', 'p'), ('Q', 'q'), ('R', 'r'),
   ('S', 's'), ('T', 't'), ('U', 'u'), ('V', 'v'), ('W', 'w'), ('X', 'x'),
   ('Y', 'y'), ('Z', 'z')]

/-- ASCII lower-casing, the case folding relevant to `re.IGNORECASE` on the
ASCII-letter literals `div`, `section`, `id` of the HTML pattern. -/
def toLowerChar (c : Char) : Char :=
  (lowerPairs.lookup c).getD c

/-- Case-insensitive literal match: if the pattern (given lower-case) matches a
case-folded prefix of the input, return the rest of the input. -/
def ciPrefixRest : List Char → List Char → Option (List Char)
  | [], s => some s
  | _ :: _, [] => none
  | p :: ps, c :: cs => if toLowerChar c = p then ciPrefixRest ps cs else none

/--
Tail of the HTML pattern at a fixed backtracking offset `k` for `[^>]+`:
`id=["\']([^"\']+)["\'][^>]*>` tried at `t.drop k` (case-insensitive `id`).
The quoted value `[^"\']+` is forced to the maximal quote-free run (shrinking
it can never satisfy the following `["\']`), the closing quote is either quote
character, and `[^>]*>` succeeds exactly when a later `>` exists, ending the
match just after the first such `>`.

Returns group 1 (the id value) and the input after the match end.
-/
def idTryAt (t : List Char) (k : Nat) : Option (List Char × List Char) :=
  match ciPrefixRest ['i', 'd', '='] (t.drop k) with
  | none => none
  | some u =>
    match u with
    | [] => none
    | q :: v =>
      if q = '"' || q = '\'' then
        let val := v.takeWhile (fun c => !(c = '"' || c = '\''))
        match v.dropWhile (fun c => !(c = '"' || c = '\'')) with
        | [] => none
        | _ :: x =>
          if val.isEmpty then none
          else
            match x.dropWhile (fun c => !(c = '>')) with
            | '>' :: z => some (val, z)
            | _ => none
      else none

/-- Greedy backtracking loop for `[^>]+`: try the largest consumption first
(`k` characters, all of them inside the maximal `>`-free run), down to one. -/
def idTryFrom (t : List Char) : Nat → Option (List Char × List Char)
  | 0 => none
  | k + 1 =>
    match idTryAt t (k + 1) with
    | some r => some r
    | none => idTryFrom t k

/--
Attempt of the HTML section pattern
`<(?:div|section)[^>]+id=["\']([^"\']+)["\'][^>]*>` (IGNORECASE) at a position
just after a literal `<`.  `div` and `section` start with distinct letters, so
at most one alternative applies.  `[^>]+` can consume at most the maximal
`>`-free run following the tag name; the greedy engine tries the largest
consumption first.
-/
def htmlMatchTag (s : List Char) : Option (List Char × List Char) :=
  match ciPrefixRest ['d', 'i', 'v'] s with
  | some t => idTryFrom t (t.takeWhile (fun c => !(c = '>'))).length
  | none =>
    match ciPrefixRest ['s', 'e', 'c', 't', 'i', 'o', 'n'] s with
    | some t => idTryFrom t (t.takeWhile (fun c => !(c = '>'))).length
    | none => none

/-- `re.finditer` loop for the HTML section pattern: leftmost match, resume
after the `>` that ends a match.  Fuel-indexed; each step consumes at least
one character. -/
def htmlFindAllF : Nat → List Char → List (List Char)
  | 0, _ => []
  | _ + 1, [] => []
  | fuel + 1, c :: rest =>
    if c = '<' then
      match htmlMatchTag rest with
      | some (v, z) => v :: htmlFindAllF fuel z
      | none => htmlFindAllF fuel rest
    else htmlFindAllF fuel rest

/-- The blocked-id substrings of `extract_documentation_sections`, verbatim. -/
def blockedIdParts : List (List Char) :=
  ["sidebar", "overview", "paint0", "clip0", "hero_logo"].map String.toList

/-- `extract_documentation_sections` on character lists: scan, drop ids
containing a blocked substring, then `sorted(...)` (no deduplication). -/
def extractDocumentationSectionsL (html : List Char) : List (List Char) :=
  sortLex ((htmlFindAllF html.length html).filter
    (fun sid => !(blockedIdParts.any (fun b => listContains b sid))))

/-- `extract_documentation_sections`. -/
def extract_documentation_sections (html : String) : List String :=
  (extractDocumentationSectionsL html.toList).map String.mk

/-- The `pluralization_map` of `create_semantic_mapping`, verbatim. -/
def pluralization_map : List (List Char × List Char) :=
  [("btn", "buttons"), ("card", "cards"), ("modal", "modals"), ("form", "forms"),
   ("table", "tables"), ("badge", "badges"), ("nav", "navigation"),
   ("footer", "footers"), ("hero", "heroes")].map
    (fun p => (p.1.toList, p.2.toList))

/-- `component.split('-')[0]`: the base name of a component. -/
def baseOf (comp : List Char) : List Char :=
  (splitDash comp).headD []

/-- The `potential_sections` candidate list of `create_semantic_mapping`: the
base's plural/alias form when the lookup table has one, then the base, then
the full component name. -/
def candidateTargets (comp : List Char) : List (List Char) :=
  (match pluralization_map.lookup (baseOf comp) with
   | some p => [p]
   | none => []) ++ [baseOf comp, comp]

/-- The per-component mapping step: the first candidate present in the section
list wins; `none` when no candidate matches. -/
def mapComponentL (sections : List (List Char)) (comp : List Char) : Option (List Char) :=
  (candidateTargets comp).find? (fun p => sections.contains p)

/-- `create_semantic_mapping`: the `component_to_section` dictionary as an
association list in component order.  (The reverse `section_to_component`
dictionary also returned by the source is unused by the audit.) -/
def create_semantic_mapping (comps sections : List (List Char)) :
    List (List Char × List Char) :=
  comps.filterMap (fun c => (mapComponentL sections c).map (fun s => (c, s)))

/-- The component-prefix list of the stale-section test in
`audit_documentation`, verbatim. -/
def staleCheckNames : List (List Char) :=
  ["btn", "card", "modal", "token", "badge", "form", "table", "nav", "footer"].map
    String.toList

/-- `section.startswith(prefix) or prefix in section` over the fixed list. -/
def componentLike (sid : List Char) : Bool :=
  staleCheckNames.any (fun p => p.isPrefixOf sid || listContains p sid)

/-- The pure core of `audit_documentation` after both files are read:
undocumented components and stale sections from the extracted lists. -/
def auditCore (comps sections : List (List Char)) :
    List (List Char) × List (List Char) :=
  let c2s := create_semantic_mapping comps sections
  let undocumented := comps.filter (fun c => (c2s.lookup c).isNone)
  let documented := c2s.map Prod.snd
  let stale := (sections.filter componentLike).filter (fun s => !(documented.contains s))
  (undocumented, stale)

/-- `audit_documentation` on file contents:
`(undocumented, stale_sections, component_count, section_count)`. -/
def audit_documentation (css html : String) :
    List String × List String × Nat × Nat :=
  ((auditCore (extractSemanticComponentsL css.toList)
      (extractDocumentationSectionsL html.toList)).1.map String.mk,
   (auditCore (extractSemanticComponentsL css.toList)
      (extractDocumentationSectionsL html.toList)).2.map String.mk,
   (extractSemanticComponentsL css.toList).length,
   (extractDocumentationSectionsL html.toList).length)

/-- The undocumented-components list of a run. -/
def undocumented_components (css html : String) : List String :=
  (audit_documentation css html).1

/-- The stale-sections list of a run. -/
def stale_sections (css html : String) : List String :=
  (audit_documentation css html).2.1

/-- The fatal input errors of `main`: wrong argument count, missing/unreadable
CSS file, missing/unreadable HTML file. -/
inductive MainError : Type
  | usage : MainError
  | cssMissing : String → MainError
  | htmlMissing : String → MainError
deriving DecidableEq

/-- An apostrophe, kept out of string literals. -/
def apos : Char := Char.ofNat 39

/-- The error line printed for each fatal input error, as a character list
(`Usage: ...`, `❌ Error: CSS file '<path>' not found.`, likewise for HTML). -/
def errorMessageL : MainError → List Char
  | .usage => "Usage: python audit-documentation.py <css-file-path> <html-file-path>".toList
  | .cssMissing p =>
      "❌ Error: CSS file ".toList ++ apos :: p.toList ++ apos :: " not found.".toList
  | .htmlMissing p =>
      "❌ Error: HTML file ".toList ++ apos :: p.toList ++ apos :: " not found.".toList

/-- The error line printed for each fatal input error. -/
def error_message (e : MainError) : String :=
  String.mk (errorMessageL e)

/--
Input validation and audit of `main`, over an abstract read-only file system
(`none` models a missing or unreadable path; `os.path.exists` and the
subsequent `open` in `audit_documentation` consult the same state).  The CSS
path is checked first; a failure there aborts before the HTML path is looked
at.  On success, the undocumented and stale lists are returned.
-/
def mainOutcome (argv : List String) (fileSystem : String → Option String) :
    MainError ⊕ (List String × List String) :=
  match argv with
  | [_, cssPath, htmlPath] =>
    match fileSystem cssPath with
    | none => .inl (.cssMissing cssPath)
    | some css =>
      match fileSystem htmlPath with
      | none => .inl (.htmlMissing htmlPath)
      | some html => .inr (undocumented_components css html, stale_sections css html)
  | _ => .inl .usage

/-- The process exit code of `main`: 1 on any fatal input error, 1 when the
report lists at least one undocumented component or stale section, else 0. -/
def mainExit (argv : List String) (fileSystem : String → Option String) : Nat :=
  match mainOutcome argv fileSystem with
  | .inl _ => 1
  | .inr (u, s) => if u.isEmpty && s.isEmpty then 0 else 1

/-- A concrete two-file read-only file system used to instantiate the
exit-code contract. -/
def fsC1 : String → Option String :=
  fun p =>
    if p = "tokens.css" then some ".btn \x7b\x7d .btn-primary \x7b\x7d"
    else if p = "docs.html" then some "<div id=\"buttons\"></div>"
    else none

end AuditDoc

namespace AuditDoc

theorem lexLe_of_not_lexLe : ∀ a b : List Char, lexLe a b = false → lexLe b a = true
  | [], _, h => by simp [lexLe] at h
  | _ :: _, [], _ => by simp [lexLe]
  | a :: as, b :: bs, h => by
    simp only [lexLe, Bool.or_eq_false_iff, Bool.and_eq_false_iff,
      decide_eq_false_iff_not] at h
    rcases h with ⟨hlt, hr⟩
    rcases lt_trichotomy a b with h1 | h1 | h1
    · exact absurd h1 hlt
    · subst h1
      rcases hr with hr | hr
      · simp at hr
      · simp [lexLe, lexLe_of_not_lexLe as bs hr]
    · simp [lexLe, h1]

theorem sortedLex_insertLexLe : ∀ (x : List Char) (l : List (List Char)),
    sortedLex l = true → sortedLex (insertLexLe x l) = true
  | x, [], _ => by simp [insertLexLe, sortedLex]
  | x, [y], _ => by
    by_cases hxy : lexLe x y = true
    · simp [insertLexLe, hxy, sortedLex]
    · have hyx : lexLe y x = true := lexLe_of_not_lexLe x y (by simpa using hxy)
      simp [insertLexLe, hxy, sortedLex, hyx]
  | x, y :: z :: zs, h => by
    simp only [sortedLex, Bool.and_eq_true] at h
    by_cases hxy : lexLe x y = true
    · simp only [insertLexLe, if_pos hxy]
      simp [sortedLex, hxy, h.1, h.2]
    · have hyx : lexLe y x = true := lexLe_of_not_lexLe x y (by simpa using hxy)
      have ih := sortedLex_insertLexLe x (z :: zs) h.2
      by_cases hxz : lexLe x z = true
      · have ih' : sortedLex (x :: z :: zs) = true := by
          simpa only [insertLexLe, if_pos hxz] using ih
        simp only [insertLexLe, if_neg hxy, if_pos hxz]
        rw [show sortedLex (y :: x :: z :: zs)
            = (lexLe y x && sortedLex (x :: z :: zs)) from rfl, ih', hyx]
        rfl
      · have ih' : sortedLex (z :: insertLexLe x zs) = true := by
          simpa only [insertLexLe, if_neg hxz] using ih
        simp only [insertLexLe, if_neg hxy, if_neg hxz]
        rw [show sortedLex (y :: z :: insertLexLe x zs)
            = (lexLe y z && sortedLex (z :: insertLexLe x zs)) from rfl, ih', h.1]
        rfl

theorem sortedLex_sortLex : ∀ l : List (List Char), sortedLex (sortLex l) = true
  | [] => rfl
  | x :: xs => sortedLex_insertLexLe x (sortLex xs) (sortedLex_sortLex xs)

theorem mem_insertLexLe {y x : List Char} : ∀ {l : List (List Char)},
    y ∈ insertLexLe x l ↔ y = x ∨ y ∈ l
  | [] => by simp [insertLexLe]
  | z :: zs => by
    by_cases h : lexLe x z = true
    · simp [insertLexLe, if_pos h]
    · simp only [insertLexLe, if_neg h, List.mem_cons, mem_insertLexLe (l := zs)]
      tauto

theorem mem_sortLex {y : List Char} : ∀ {l : List (List Char)}, y ∈ sortLex l ↔ y ∈ l
  | [] => Iff.rfl
  | x :: xs => by
    simp [sortLex, mem_insertLexLe, mem_sortLex (l := xs)]

theorem mem_dedupAcc {y : List Char} : ∀ {seen l : List (List Char)},
    y ∈ dedupAcc seen l → y ∈ l
  | _, [], h => by simp [dedupAcc] at h
  | seen, x :: xs, h => by
    by_cases hc : seen.contains x = true
    · simp only [dedupAcc, if_pos hc] at h
      exact List.mem_cons_of_mem x (mem_dedupAcc h)
    · simp only [dedupAcc, if_neg hc, List.mem_cons] at h
      rcases h with h | h
      · simp [h]
      · exact List.mem_cons_of_mem x (mem_dedupAcc h)

theorem sortedStr_map_mk : ∀ l : List (List Char),
    sortedStr (l.map String.mk) = sortedLex l
  | [] => rfl
  | [_] => rfl
  | x :: y :: r => by
    show (strLe (String.mk x) (String.mk y) && sortedStr ((y :: r).map String.mk)) = _
    rw [sortedStr_map_mk (y :: r)]
    rfl

theorem mem_map_mk {s : String} {l : List (List Char)} :
    s ∈ l.map String.mk ↔ s.toList ∈ l := by
  constructor
  · intro h
    rcases List.mem_map.1 h with ⟨a, ha, rfl⟩
    exact ha
  · intro h
    exact List.mem_map.2 ⟨s.toList, h, rfl⟩

theorem listContains_append_self : ∀ n suf : List Char, listContains n (n ++ suf) = true
  | [], suf => by cases suf <;> simp [listContains, List.isPrefixOf]
  | a :: as, suf => by
    have : (a :: as).isPrefixOf (a :: as ++ suf) = true :=
      List.isPrefixOf_iff_prefix.mpr (List.prefix_append (a :: as) suf)
    simp [listContains, this]

theorem listContains_middle : ∀ pre n suf : List Char,
    listContains n (pre ++ n ++ suf) = true
  | [], n, suf => by simpa using listContains_append_self n suf
  | p :: ps, n, suf => by
    show (n.isPrefixOf (p :: (ps ++ n ++ suf)) || listContains n (ps ++ n ++ suf)) = true
    rw [listContains_middle ps n suf, Bool.or_true]

theorem create_cons_none {a : List Char} {sections rest : List (List Char)}
    (hma : mapComponentL sections a = none) :
    create_semantic_mapping (a :: rest) sections =
      create_semantic_mapping rest sections := by
  simp [create_semantic_mapping, List.filterMap_cons, hma]

theorem create_cons_some {a s : List Char} {sections rest : List (List Char)}
    (hma : mapComponentL sections a = some s) :
    create_semantic_mapping (a :: rest) sections =
      (a, s) :: create_semantic_mapping rest sections := by
  simp [create_semantic_mapping, List.filterMap_cons, hma]

theorem lookup_create_of_not_mem {c : List Char} (sections : List (List Char)) :
    ∀ comps : List (List Char), c ∉ comps →
      (create_semantic_mapping comps sections).lookup c = none
  | [], _ => rfl
  | a :: rest, h => by
    have hne : c ≠ a := fun he => h (he ▸ List.mem_cons_self a rest)
    have hrest : c ∉ rest := fun hm => h (List.mem_cons_of_mem a hm)
    cases hma : mapComponentL sections a with
    | none =>
      rw [create_cons_none hma]
      exact lookup_create_of_not_mem sections rest hrest
    | some s =>
      rw [create_cons_some hma, List.lookup_cons, beq_false_of_ne hne]
      exact lookup_create_of_not_mem sections rest hrest

theorem lookup_create_of_mem {c : List Char} (sections : List (List Char)) :
    ∀ comps : List (List Char), c ∈ comps →
      (create_semantic_mapping comps sections).lookup c = mapComponentL sections c
  | [], h => absurd h (List.not_mem_nil c)
  | a :: rest, h => by
    by_cases hca : c = a
    · subst hca
      cases hma : mapComponentL sections c with
      | none =>
        rw [create_cons_none hma]
        by_cases hr : c ∈ rest
        · exact (lookup_create_of_mem sections rest hr).trans hma
        · exact lookup_create_of_not_mem sections rest hr
      | some s =>
        rw [create_cons_some hma, List.lookup_cons]
        simp
    · have hr : c ∈ rest := (List.mem_cons.1 h).resolve_left hca
      cases hma : mapComponentL sections a with
      | none =>
        rw [create_cons_none hma]
        exact lookup_create_of_mem sections rest hr
      | some s =>
        rw [create_cons_some hma, List.lookup_cons, beq_false_of_ne hca]
        exact lookup_create_of_mem sections rest hr

theorem mem_values_create {s : List Char} {sections : List (List Char)} :
    ∀ comps : List (List Char),
      s ∈ (create_semantic_mapping comps sections).map Prod.snd ↔
        ∃ c ∈ comps, mapComponentL sections c = some s
  | [] => by simp [create_semantic_mapping]
  | a :: rest => by
    cases hma : mapComponentL sections a with
    | none =>
      rw [create_cons_none hma, mem_values_create rest]
      constructor
      · rintro ⟨c, hc, hm⟩
        exact ⟨c, List.mem_cons_of_mem a hc, hm⟩
      · rintro ⟨c, hc, hm⟩
        rcases List.mem_cons.1 hc with rfl | hc
        · rw [hma] at hm; cases hm
        · exact ⟨c, hc, hm⟩
    | some t =>
      rw [create_cons_some hma]
      simp only [List.map_cons]
      constructor
      · intro h
        rcases List.mem_cons.1 h with rfl | h
        · exact ⟨a, List.mem_cons_self a rest, hma⟩
        · rcases (mem_values_create rest).1 h with ⟨c, hc, hm⟩
          exact ⟨c, List.mem_cons_of_mem a hc, hm⟩
      · rintro ⟨c, hc, hm⟩
        rcases List.mem_cons.1 hc with rfl | hc
        · rw [hma] at hm
          cases hm
          exact List.mem_cons_self _ _
        · exact List.mem_cons_of_mem t
            ((mem_values_create rest).2 ⟨c, hc, hm⟩)

theorem mem_undocumented_iff {c : List Char} {comps sections : List (List Char)} :
    c ∈ (auditCore comps sections).1 ↔
      c ∈ comps ∧ mapComponentL sections c = none := by
  simp only [auditCore, List.mem_filter]
  constructor
  · rintro ⟨hm, hf⟩
    rw [lookup_create_of_mem sections comps hm] at hf
    exact ⟨hm, Option.isNone_iff_eq_none.1 hf⟩
  · rintro ⟨hm, hnone⟩
    refine ⟨hm, ?_⟩
    rw [lookup_create_of_mem sections comps hm, hnone]
    rfl

theorem mem_stale_iff {s : List Char} {comps sections : List (List Char)} :
    s ∈ (auditCore comps sections).2 ↔
      s ∈ sections ∧ componentLike s = true ∧
        ¬∃ c ∈ comps, mapComponentL sections c = some s := by
  simp only [auditCore, List.mem_filter, Bool.not_eq_true']
  constructor
  · rintro ⟨⟨hs, hlike⟩, hnd⟩
    refine ⟨hs, hlike, fun hex => ?_⟩
    have hmem : s ∈ (create_semantic_mapping comps sections).map Prod.snd :=
      (mem_values_create comps).2 hex
    have htrue : ((create_semantic_mapping comps sections).map Prod.snd).contains s
        = true := List.elem_iff.2 hmem
    rw [hnd] at htrue
    cases htrue
  · rintro ⟨hs, hlike, hnex⟩
    refine ⟨⟨hs, hlike⟩, ?_⟩
    by_cases hc : ((create_semantic_mapping comps sections).map Prod.snd).contains s = true
    · exact absurd ((mem_values_create comps).1 (List.elem_iff.1 hc)) hnex
    · simpa using hc

theorem cssMatchAfterDot_any {s run after : List Char}
    (h : cssMatchAfterDot s = some (run, after)) :
    componentAlternatives.any (fun a => a.isPrefixOf run) = true := by
  unfold cssMatchAfterDot at h
  split at h
  case isTrue hg =>
    split at h
    · cases h
      exact hg
    · cases h
  case isFalse hg => cases h

theorem cssFindAllF_any : ∀ (fuel : Nat) (s r : List Char),
    r ∈ cssFindAllF fuel s →
    componentAlternatives.any (fun a => a.isPrefixOf r) = true
  | 0, _, _, h => by simp [cssFindAllF] at h
  | _ + 1, [], _, h => by simp [cssFindAllF] at h
  | fuel + 1, c :: rest, r, h => by
    by_cases hc : c = '.'
    · subst hc
      simp only [cssFindAllF, if_pos rfl] at h
      cases hm : cssMatchAfterDot rest with
      | none =>
        simp only [hm] at h
        exact cssFindAllF_any fuel rest r h
      | some pr =>
        obtain ⟨run, after⟩ := pr
        simp only [hm] at h
        rcases List.mem_cons.1 h with h | h
        · subst h
          exact cssMatchAfterDot_any hm
        · exact cssFindAllF_any fuel after r h
    · simp only [cssFindAllF, if_neg hc] at h
      exact cssFindAllF_any fuel rest r h

theorem mem_extractSemanticComponentsL_any {css r : List Char}
    (h : r ∈ extractSemanticComponentsL css) :
    componentAlternatives.any (fun a => a.isPrefixOf r) = true := by
  unfold extractSemanticComponentsL at h
  have h1 := mem_dedupAcc (mem_sortLex.1 h)
  have h2 := (List.mem_filter.1 h1).1
  exact cssFindAllF_any css.length css r (mem_dedupAcc h2)

theorem mem_of_lookup_some {α β : Type} [BEq α] [LawfulBEq α]
    {l : List (α × β)} {k : α} {b : β} (h : l.lookup k = some b) : (k, b) ∈ l := by
  rcases List.lookup_eq_some_iff.1 h with ⟨l1, l2, rfl, _⟩
  simp

theorem toLowerChar_inv {c d : Char} (h : toLowerChar c = d) :
    c = d ∨ (c, d) ∈ lowerPairs := by
  unfold toLowerChar at h
  cases hl : lowerPairs.lookup c with
  | none =>
    rw [hl] at h
    exact Or.inl h
  | some v =>
    rw [hl] at h
    simp only [Option.getD_some] at h
    subst h
    exact Or.inr (mem_of_lookup_some hl)

theorem headD_splitDashAux : ∀ (s cur : List Char),
    (splitDashAux cur s).headD [] = cur.reverse ++ s.takeWhile (fun c => !(c = '-'))
  | [], cur => by simp [splitDashAux]
  | c :: rest, cur => by
    by_cases hc : c = '-'
    · subst hc
      simp [splitDashAux, List.takeWhile_cons]
    · rw [show splitDashAux cur (c :: rest) = splitDashAux (c :: cur) rest by
        simp [splitDashAux, hc]]
      rw [headD_splitDashAux rest (c :: cur)]
      simp [List.takeWhile_cons, hc]

theorem baseOf_no_hyphen (comp : List Char) : '-' ∉ baseOf comp := by
  intro hm
  unfold baseOf splitDash at hm
  rw [headD_splitDashAux comp []] at hm
  simp only [List.reverse_nil, List.nil_append] at hm
  have := List.mem_takeWhile_imp hm
  simp at this

theorem ciPrefixRest_of_map : ∀ (t : List Char) (r : List Char),
    ciPrefixRest (t.map toLowerChar) (t ++ r) = some r
  | [], r => rfl
  | c :: cs, r => by
    simp only [List.map_cons, List.cons_append, ciPrefixRest, if_pos rfl]
    exact ciPrefixRest_of_map cs r

theorem htmlFindAllF_nil : ∀ fuel : Nat, htmlFindAllF fuel [] = []
  | 0 => rfl
  | _ + 1 => rfl

theorem htmlFindAllF_match {fuel : Nat} {rest v z : List Char}
    (h : htmlMatchTag rest = some (v, z)) :
    htmlFindAllF (fuel + 1) ('<' :: rest) = v :: htmlFindAllF fuel z := by
  simp [htmlFindAllF, h]

end AuditDoc

section Examples
open AuditDoc
example : extract_semantic_components ".btn \x7b\x7d\n.btn-primary \x7b\x7d\n.card-internal-detail \x7b\x7d" = ["btn", "btn-primary"] := by decide
example : extract_semantic_components ".empty-state \x7b" = [] := by decide
example : extract_semantic_components ".navbar \x7b" = ["navbar"] := by decide
example : extract_semantic_components ".p-4 \x7b .flex \x7b" = [] := by decide
example : extract_documentation_sections "<div id=\"buttons\"></div>" = ["buttons"] := by decide
example : extract_documentation_sections "<DIV ID=\"cards\">" = ["cards"] := by decide
example : extract_documentation_sections "<div id=\"cards\"><section id=\"cards\">" = ["cards", "cards"] := by decide
example : extract_documentation_sections "<div data-id=\"x\" id=\"y\">" = ["y"] := by decide
example : extract_documentation_sections "<div data-id=\"x\">" = ["x"] := by decide
example : extract_documentation_sections "<div id=\"sidebar-main\"><div id=\"modal-dialog\">" = ["modal-dialog"] := by decide
example : extract_documentation_sections "<span id=\"cards\"><div id=>" = [] := by decide
example : extract_documentation_sections "<div id=\"a>b\">" = ["a>b"] := by decide
example : extract_documentation_sections "<div\nid=\"nl\">" = ["nl"] := by decide
example : extract_documentation_sections "<section  id = \"sp\">" = [] := by decide
example : extract_documentation_sections "<div id=\"\"><div id=\"ok\">" = ["ok"] := by decide
example : extract_documentation_sections "<divx id=\"q\">" = ["q"] := by decide
example : extract_documentation_sections "<div foo><div id=\"a\">" = ["a"] := by decide
example : extract_semantic_components ".btn\x7b.card \x7b" = ["btn", "card"] := by decide
example : extract_semantic_components ".btn \t\n \x7bx.card\x7b" = ["btn", "card"] := by decide
example : audit_documentation ".btn \x7b\x7d\n.btn-primary \x7b\x7d\n.card-internal-detail \x7b\x7d" "<div id=\"buttons\"></div>" = ([], [], 2, 1) := by decide
example : audit_documentation "" "<div id=\"modal-dialog\">" = ([], ["modal-dialog"], 0, 1) := by decide
example : audit_documentation ".token \x7b" "<p>" = (["token"], [], 1, 0) := by decide
example :
    AuditDoc.create_semantic_mapping
      (AuditDoc.extractSemanticComponentsL (".btn \x7b\x7d .btn-primary \x7b\x7d").toList)
      (AuditDoc.extractDocumentationSectionsL ("<div id=\"buttons\"></div>").toList)
      = [("btn".toList, "buttons".toList), ("btn-primary".toList, "buttons".toList)] := by decide
end Examples

/-- C1: for every pair of readable input files given with the correct argument
count, the exit code is 0 iff the undocumented-components list and the
stale-sections list are both empty; the exit code is 1 on a wrong argument
count, on a missing/unreadable file, and when at least one undocumented
component or stale section is found; no other exit code occurs. -/
theorem c1_exit_code_contract (fs : String → Option String)
    (p c h css html : String) (hc : fs c = some css) (hh : fs h = some html) :
    (AuditDoc.mainExit [p, c, h] fs = 0 ↔
      AuditDoc.undocumented_components css html = [] ∧
      AuditDoc.stale_sections css html = []) ∧
    (∀ argv : List String, argv.length ≠ 3 → AuditDoc.mainExit argv fs = 1) ∧
    (∀ p2 c2 h2 : String, fs c2 = none ∨ fs h2 = none →
      AuditDoc.mainExit [p2, c2, h2] fs = 1) ∧
    (∀ css2 html2, fs c = some css2 → fs h = some html2 →
      (AuditDoc.undocumented_components css2 html2 ≠ [] ∨
       AuditDoc.stale_sections css2 html2 ≠ []) →
      AuditDoc.mainExit [p, c, h] fs = 1) ∧
    (AuditDoc.mainExit [p, c, h] fs = 0 ∨ AuditDoc.mainExit [p, c, h] fs = 1) := by
  have hform : AuditDoc.mainExit [p, c, h] fs =
      if (AuditDoc.undocumented_components css html).isEmpty &&
         (AuditDoc.stale_sections css html).isEmpty then 0 else 1 := by
    simp [AuditDoc.mainExit, AuditDoc.mainOutcome, hc, hh]
  refine ⟨?_, ?_, ?_, ?_, ?_⟩
  · rw [hform]
    split
    · rename_i hcond
      simp only [Bool.and_eq_true, List.isEmpty_iff] at hcond
      simp [hcond]
    · rename_i hcond
      constructor
      · intro h01
        exact absurd h01 (by decide)
      · rintro ⟨hu, hs⟩
        exact absurd (by simp [hu, hs] :
          ((AuditDoc.undocumented_components css html).isEmpty &&
           (AuditDoc.stale_sections css html).isEmpty) = true) hcond
  · intro argv hlen
    rcases argv with _ | ⟨a, _ | ⟨b, _ | ⟨d, _ | ⟨e, tail⟩⟩⟩⟩
    · rfl
    · rfl
    · rfl
    · simp at hlen
    · rfl
  · intro p2 c2 h2 hor
    cases hfc : fs c2 with
    | none => simp [AuditDoc.mainExit, AuditDoc.mainOutcome, hfc]
    | some v =>
      rcases hor with hnone | hnone
      · rw [hfc] at hnone
        cases hnone
      · simp [AuditDoc.mainExit, AuditDoc.mainOutcome, hfc, hnone]
  · intro css2 html2 hc2 hh2 hne
    rw [hc] at hc2
    rw [hh] at hh2
    cases hc2
    cases hh2
    rw [hform]
    rcases hne with hne | hne
    · have : (AuditDoc.undocumented_components css html).isEmpty = false := by
        cases hx : (AuditDoc.undocumented_components css html).isEmpty
        · rfl
        · exact absurd (List.isEmpty_iff.1 hx) hne
      simp [this]
    · have : (AuditDoc.stale_sections css html).isEmpty = false := by
        cases hx : (AuditDoc.stale_sections css html).isEmpty
        · rfl
        · exact absurd (List.isEmpty_iff.1 hx) hne
      simp [this]
  · rw [hform]
    split
    · exact Or.inl rfl
    · exact Or.inr rfl

/-- C1 witness: on a concrete file system holding a CSS file whose two
components are both documented by the `buttons` section, the process exits 0. -/
theorem c1_exit_code_contract_witness :
    AuditDoc.mainExit ["prog", "tokens.css", "docs.html"] AuditDoc.fsC1 = 0 :=
  (c1_exit_code_contract AuditDoc.fsC1 "prog" "tokens.css" "docs.html"
    ".btn \x7b\x7d .btn-primary \x7b\x7d" "<div id=\"buttons\"></div>"
    (by decide) (by decide)).1.mpr ⟨by decide, by decide⟩

/-- C2: the secondary allow-list branch of `extract_semantic_components` can
never fire.  The base of a component (the text before the first hyphen) never
contains a hyphen, so it is never equal to `empty-state` or `profile-card`;
consequently the CSS input `.empty-state \x7b` is matched by the regex (the
scan yields `empty-state`) yet the extracted component set is empty, contrary
to the documented intent of keeping such names. -/
theorem c2_secondary_allowlist_unreachable :
    (∀ comp : List Char,
      AuditDoc.secondaryBases.contains (AuditDoc.baseOf comp) = false) ∧
    AuditDoc.cssFindAllF (".empty-state \x7b".toList.length) ".empty-state \x7b".toList
      = ["empty-state".toList] ∧
    AuditDoc.extract_semantic_components ".empty-state \x7b" = [] := by
  refine ⟨?_, by decide, by decide⟩
  intro comp
  cases hc : AuditDoc.secondaryBases.contains (AuditDoc.baseOf comp) with
  | false => rfl
  | true =>
    exfalso
    have hm := List.elem_iff.1 hc
    have hdisj : AuditDoc.baseOf comp = "empty-state".toList ∨
        AuditDoc.baseOf comp = "profile-card".toList := by
      simpa [AuditDoc.secondaryBases] using hm
    have hh : '-' ∈ AuditDoc.baseOf comp := by
      rcases hdisj with hd | hd <;> rw [hd] <;> decide
    exact AuditDoc.baseOf_no_hyphen comp hh

/-- C5 counterexample: the CSS `.btn \x7b\x7d .btn-primary \x7b\x7d` with the
HTML `<div id="buttons"></div>` maps the two distinct components `btn` and
`btn-primary` to the same section `buttons`, so the component-to-section
mapping is not one-to-one-or-none. -/
theorem c5_counterexample :
    (AuditDoc.create_semantic_mapping
      (AuditDoc.extractSemanticComponentsL (".btn \x7b\x7d .btn-primary \x7b\x7d").toList)
      (AuditDoc.extractDocumentationSectionsL ("<div id=\"buttons\"></div>").toList)).lookup
        "btn".toList = some "buttons".toList ∧
    (AuditDoc.create_semantic_mapping
      (AuditDoc.extractSemanticComponentsL (".btn \x7b\x7d .btn-primary \x7b\x7d").toList)
      (AuditDoc.extractDocumentationSectionsL ("<div id=\"buttons\"></div>").toList)).lookup
        "btn-primary".toList = some "buttons".toList ∧
    "btn".toList ≠ "btn-primary".toList := by decide

/-- C5 (amended): the component-to-section mapping is a partial function from
components into the extracted section set — every mapped component receives
exactly one section id and that id is one of the sections — but it need not be
injective: two distinct components may share a target section. -/
theorem c5_mapping_function_into_sections (comps sections : List (List Char))
    (c s : List Char)
    (h : (AuditDoc.create_semantic_mapping comps sections).lookup c = some s) :
    s ∈ sections := by
  by_cases hc : c ∈ comps
  · rw [AuditDoc.lookup_create_of_mem sections comps hc] at h
    unfold AuditDoc.mapComponentL at h
    have hp := List.find?_some h
    exact List.elem_iff.1 hp
  · rw [AuditDoc.lookup_create_of_not_mem sections comps hc] at h
    cases h

/-- C5 witness: instantiating the amended mapping property at the concrete
`btn`/`buttons` run. -/
theorem c5_mapping_function_into_sections_witness :
    "buttons".toList ∈
      AuditDoc.extractDocumentationSectionsL ("<div id=\"buttons\"></div>").toList :=
  c5_mapping_function_into_sections
    (AuditDoc.extractSemanticComponentsL (".btn \x7b\x7d .btn-primary \x7b\x7d").toList)
    (AuditDoc.extractDocumentationSectionsL ("<div id=\"buttons\"></div>").toList)
    "btn".toList "buttons".toList (by decide)

/-- C6 counterexample: an HTML input carrying the id `cards` on two container
tags yields the section list `["cards", "cards"]`, which has a repeated
element — the extraction result is not a set. -/
theorem c6_counterexample :
    AuditDoc.extract_documentation_sections "<div id=\"cards\"><section id=\"cards\">"
      = ["cards", "cards"] ∧
    ¬ (AuditDoc.extract_documentation_sections
        "<div id=\"cards\"><section id=\"cards\">").Nodup := by decide

/-- C6 (amended): for every HTML input the extracted section-identifier list is
sorted ascending in the Python string order; duplicate id values on several
container tags are kept, one entry per occurrence (no deduplication). -/
theorem c6_sections_sorted (html : String) :
    AuditDoc.sortedStr (AuditDoc.extract_documentation_sections html) = true := by
  unfold AuditDoc.extract_documentation_sections
  rw [AuditDoc.sortedStr_map_mk]
  unfold AuditDoc.extractDocumentationSectionsL
  exact AuditDoc.sortedLex_sortLex _

/-- C7: on CSS with selectors `.btn \x7b\x7d`, `.btn-primary \x7b\x7d`,
`.card-internal-detail \x7b\x7d` and HTML with `id="buttons"`, the audit maps
both `btn` and `btn-primary` to the `buttons` section (neither is
undocumented), excludes `card-internal-detail` from the component set
entirely, and the total audit function returns an empty issue report. -/
theorem c7_btn_scenario :
    AuditDoc.extract_semantic_components
      ".btn \x7b\x7d\n.btn-primary \x7b\x7d\n.card-internal-detail \x7b\x7d"
      = ["btn", "btn-primary"] ∧
    "card-internal-detail" ∉ AuditDoc.extract_semantic_components
      ".btn \x7b\x7d\n.btn-primary \x7b\x7d\n.card-internal-detail \x7b\x7d" ∧
    AuditDoc.audit_documentation
      ".btn \x7b\x7d\n.btn-primary \x7b\x7d\n.card-internal-detail \x7b\x7d"
      "<div id=\"buttons\"></div>"
      = ([], [], 2, 1) := by decide

theorem contains_true_of_mem {x : List Char} {l : List (List Char)} (h : x ∈ l) :
    l.contains x = true :=
  List.elem_iff.2 h

theorem contains_false_of_not_mem {x : List Char} {l : List (List Char)} (h : x ∉ l) :
    l.contains x = false := by
  cases hc : l.contains x with
  | false => rfl
  | true => exact absurd (List.elem_iff.1 hc) h

/-- C3: a component is mapped by trying candidates in the fixed order: first
the plural/alias form of its base from the lookup table (when present), then
the base itself, then the full component name; the first candidate present in
the section set wins and no later candidate is considered; a component with no
matching candidate is left unmapped and is therefore reported undocumented. -/
theorem c3_candidate_order (sections : List (List Char)) (c : List Char) :
    (∀ p, AuditDoc.pluralization_map.lookup (AuditDoc.baseOf c) = some p →
      p ∈ sections → AuditDoc.mapComponentL sections c = some p) ∧
    (∀ p, AuditDoc.pluralization_map.lookup (AuditDoc.baseOf c) = some p →
      p ∉ sections → AuditDoc.baseOf c ∈ sections →
      AuditDoc.mapComponentL sections c = some (AuditDoc.baseOf c)) ∧
    (AuditDoc.pluralization_map.lookup (AuditDoc.baseOf c) = none →
      AuditDoc.baseOf c ∈ sections →
      AuditDoc.mapComponentL sections c = some (AuditDoc.baseOf c)) ∧
    (∀ p, AuditDoc.pluralization_map.lookup (AuditDoc.baseOf c) = some p →
      p ∉ sections → AuditDoc.baseOf c ∉ sections → c ∈ sections →
      AuditDoc.mapComponentL sections c = some c) ∧
    (AuditDoc.pluralization_map.lookup (AuditDoc.baseOf c) = none →
      AuditDoc.baseOf c ∉ sections → c ∈ sections →
      AuditDoc.mapComponentL sections c = some c) ∧
    ((∀ t ∈ AuditDoc.candidateTargets c, t ∉ sections) →
      AuditDoc.mapComponentL sections c = none) ∧
    (∀ comps : List (List Char), c ∈ comps →
      AuditDoc.mapComponentL sections c = none →
      c ∈ (AuditDoc.auditCore comps sections).1) := by
  refine ⟨?_, ?_, ?_, ?_, ?_, ?_, ?_⟩
  · intro p hp hmem
    unfold AuditDoc.mapComponentL AuditDoc.candidateTargets
    rw [hp]
    simp [List.find?, hmem]
  · intro p hp hpn hbase
    unfold AuditDoc.mapComponentL AuditDoc.candidateTargets
    rw [hp]
    simp [List.find?, hpn, hbase]
  · intro hp hbase
    unfold AuditDoc.mapComponentL AuditDoc.candidateTargets
    rw [hp]
    simp [List.find?, hbase]
  · intro p hp hpn hbn hcm
    unfold AuditDoc.mapComponentL AuditDoc.candidateTargets
    rw [hp]
    simp [List.find?, hpn, hbn, hcm]
  · intro hp hbn hcm
    unfold AuditDoc.mapComponentL AuditDoc.candidateTargets
    rw [hp]
    simp [List.find?, hbn, hcm]
  · intro hall
    unfold AuditDoc.mapComponentL
    cases hf : (AuditDoc.candidateTargets c).find? (fun p => sections.contains p) with
    | none => rfl
    | some t =>
      have hmem := List.mem_of_find?_eq_some hf
      have hpred := List.find?_some hf
      exact absurd (List.elem_iff.1 hpred) (hall t hmem)
  · intro comps hin hnone
    exact AuditDoc.mem_undocumented_iff.2 ⟨hin, hnone⟩

/-- C3 witness: the plural form wins for `btn` even with the base and the full
name also present, and an unmapped component lands in the undocumented list. -/
theorem c3_candidate_order_witness :
    AuditDoc.mapComponentL ["buttons".toList, "btn".toList] "btn".toList
      = some "buttons".toList ∧
    "token".toList ∈ (AuditDoc.auditCore ["token".toList] []).1 :=
  ⟨(c3_candidate_order ["buttons".toList, "btn".toList] "btn".toList).1
    "buttons".toList (by decide) (by decide),
   (c3_candidate_order [] "token".toList).2.2.2.2.2.2
    ["token".toList] (by decide) (by decide)⟩

/-- C4: the stale-sections list contains exactly the extracted section ids that
pass the component-like test (start with or contain one of the fixed prefix
names) and are not the target of any component-to-section mapping; in
particular a section id `modal-dialog` with no component mapping to it is
reported stale. -/
theorem c4_stale_characterization (css html : String) :
    (∀ s : String, s ∈ AuditDoc.stale_sections css html ↔
        s.toList ∈ AuditDoc.extractDocumentationSectionsL html.toList ∧
        AuditDoc.componentLike s.toList = true ∧
        ¬∃ c ∈ AuditDoc.extractSemanticComponentsL css.toList,
            AuditDoc.mapComponentL (AuditDoc.extractDocumentationSectionsL html.toList) c
              = some s.toList) ∧
    ("modal-dialog".toList ∉ AuditDoc.extractSemanticComponentsL css.toList →
     "modal-dialog".toList ∈ AuditDoc.extractDocumentationSectionsL html.toList →
     "modal-dialog" ∈ AuditDoc.stale_sections css html) := by
  constructor
  · intro s
    show s ∈ ((AuditDoc.auditCore (AuditDoc.extractSemanticComponentsL css.toList)
        (AuditDoc.extractDocumentationSectionsL html.toList)).2).map String.mk ↔ _
    rw [AuditDoc.mem_map_mk, AuditDoc.mem_stale_iff]
  · intro hnm hsec
    have hstale : "modal-dialog".toList ∈
        (AuditDoc.auditCore (AuditDoc.extractSemanticComponentsL css.toList)
          (AuditDoc.extractDocumentationSectionsL html.toList)).2 := by
      apply AuditDoc.mem_stale_iff.2
      refine ⟨hsec, by decide, ?_⟩
      rintro ⟨c, hc, hmap⟩
      unfold AuditDoc.mapComponentL at hmap
      have hcand := List.mem_of_find?_eq_some hmap
      unfold AuditDoc.candidateTargets at hcand
      cases hlk : AuditDoc.pluralization_map.lookup (AuditDoc.baseOf c) with
      | none =>
        rw [hlk] at hcand
        simp only [List.nil_append, List.mem_cons, List.not_mem_nil, or_false] at hcand
        rcases hcand with hbd | hcd
        · have hhy : '-' ∈ AuditDoc.baseOf c := by
            rw [← hbd]
            decide
          exact AuditDoc.baseOf_no_hyphen c hhy
        · rw [← hcd] at hc
          exact hnm hc
      | some p =>
        rw [hlk] at hcand
        simp only [List.cons_append, List.nil_append, List.mem_cons,
          List.not_mem_nil, or_false] at hcand
        rcases hcand with hpd | hbd | hcd
        · have hpm := AuditDoc.mem_of_lookup_some hlk
          have hval : p ∈ AuditDoc.pluralization_map.map Prod.snd :=
            List.mem_map.2 ⟨_, hpm, rfl⟩
          rw [← hpd] at hval
          exact absurd hval (by decide)
        · have hhy : '-' ∈ AuditDoc.baseOf c := by
            rw [← hbd]
            decide
          exact AuditDoc.baseOf_no_hyphen c hhy
        · rw [← hcd] at hc
          exact hnm hc
    exact AuditDoc.mem_map_mk.2 hstale

/-- C4 witness: with empty CSS and an HTML file whose only container id is
`modal-dialog`, that id appears in the stale-sections list. -/
theorem c4_stale_characterization_witness :
    "modal-dialog" ∈ AuditDoc.stale_sections "" "<div id=\"modal-dialog\">" :=
  (c4_stale_characterization "" "<div id=\"modal-dialog\">").2 (by decide) (by decide)

/-- C8: the extraction and audit computation is a total function of the two
input texts: on every input, malformed or not, every extracted component name
starts with one of the pattern alternatives, every undocumented component is
one of the extracted components, every stale section is one of the extracted
sections; on a concrete malformed pair (unbalanced braces, broken tags) the
audit returns an ordinary report rather than failing. -/
theorem c8_total_extraction :
    (∀ css : String, ∀ comp ∈ AuditDoc.extract_semantic_components css,
        AuditDoc.componentAlternatives.any (fun a => a.isPrefixOf comp.toList) = true) ∧
    (∀ css html : String, ∀ u ∈ AuditDoc.undocumented_components css html,
        u ∈ AuditDoc.extract_semantic_components css) ∧
    (∀ css html : String, ∀ s ∈ AuditDoc.stale_sections css html,
        s ∈ AuditDoc.extract_documentation_sections html) ∧
    AuditDoc.audit_documentation "\x7d\x7d .btn \x7b .token"
      "<div id=>broken<div id=\"navx\">" = (["btn"], ["navx"], 1, 1) := by
  refine ⟨?_, ?_, ?_, by decide⟩
  · intro css comp hmem
    exact AuditDoc.mem_extractSemanticComponentsL_any (AuditDoc.mem_map_mk.1 hmem)
  · intro css html u hu
    have h1 : u.toList ∈ (AuditDoc.auditCore (AuditDoc.extractSemanticComponentsL css.toList)
        (AuditDoc.extractDocumentationSectionsL html.toList)).1 :=
      AuditDoc.mem_map_mk.1 hu
    exact AuditDoc.mem_map_mk.2 (AuditDoc.mem_undocumented_iff.1 h1).1
  · intro css html s hs
    have h1 : s.toList ∈ (AuditDoc.auditCore (AuditDoc.extractSemanticComponentsL css.toList)
        (AuditDoc.extractDocumentationSectionsL html.toList)).2 :=
      AuditDoc.mem_map_mk.1 hs
    exact AuditDoc.mem_map_mk.2 (AuditDoc.mem_stale_iff.1 h1).1

/-- C8 witness: instantiating the prefix invariant at the component `btn`
extracted from a malformed CSS text. -/
theorem c8_total_extraction_witness :
    AuditDoc.componentAlternatives.any
      (fun a => a.isPrefixOf (String.toList "btn")) = true :=
  c8_total_extraction.1 "\x7d\x7d .btn \x7b .token" "btn" (by decide)

/-- C9: invoked with a CSS path the file system cannot deliver, the process
exits 1 with the CSS-missing error naming that path, the error line contains
the path as a substring, and the outcome is the same whatever the file system
says about the HTML path — the CSS path is checked first and its failure
aborts the run. -/
theorem c9_css_checked_first (p c h : String) (fs : String → Option String)
    (hc : fs c = none) :
    AuditDoc.mainExit [p, c, h] fs = 1 ∧
    AuditDoc.mainOutcome [p, c, h] fs = .inl (.cssMissing c) ∧
    AuditDoc.listContains c.toList (AuditDoc.errorMessageL (.cssMissing c)) = true ∧
    (∀ fs2 : String → Option String, fs2 c = none →
        AuditDoc.mainOutcome [p, c, h] fs2 = AuditDoc.mainOutcome [p, c, h] fs) := by
  refine ⟨?_, ?_, ?_, ?_⟩
  · simp [AuditDoc.mainExit, AuditDoc.mainOutcome, hc]
  · simp [AuditDoc.mainOutcome, hc]
  · have hm := AuditDoc.listContains_middle
      ("❌ Error: CSS file ".toList ++ [AuditDoc.apos]) c.toList
      (AuditDoc.apos :: " not found.".toList)
    simpa [AuditDoc.errorMessageL, List.append_assoc] using hm
  · intro fs2 h2
    simp [AuditDoc.mainOutcome, hc, h2]

/-- C9 witness: a file system with no files at all exits 1 on the CSS path. -/
theorem c9_css_checked_first_witness :
    AuditDoc.mainExit ["prog", "missing.css", "docs.html"] (fun _ => none) = 1 :=
  (c9_css_checked_first "prog" "missing.css" "docs.html" (fun _ => none) rfl).1

/-- C10: HTML section extraction matches the container tag name and the `id`
attribute name case-insensitively while preserving the case of the id value:
for every casing of `div` or `section` and every casing of `id`, the tag
contributes its id value exactly as written (here the mixed-case `CaRds`);
in particular `<DIV ID="cards">` and `<div id="cards">` extract the same
section list. -/
theorem c10_case_insensitive_extraction :
    (∀ (tag : List Char) (a1 a2 : Char),
      (tag.map AuditDoc.toLowerChar = "div".toList ∨
       tag.map AuditDoc.toLowerChar = "section".toList) →
      [a1, a2].map AuditDoc.toLowerChar = "id".toList →
      AuditDoc.extractDocumentationSectionsL
        ('<' :: tag ++ ' ' :: a1 :: a2 :: "=\"CaRds\">".toList) = ["CaRds".toList]) ∧
    AuditDoc.extract_documentation_sections "<DIV ID=\"cards\">"
      = AuditDoc.extract_documentation_sections "<div id=\"cards\">" := by
  refine ⟨?_, by decide⟩
  intro tag a1 a2 htag hattr
  rw [show ("id".toList : List Char) = ['i', 'd'] from rfl] at hattr
  simp only [List.map_cons, List.map_nil, List.cons.injEq, and_true] at hattr
  obtain ⟨h1, h2⟩ := hattr
  have ha1 : a1 = 'i' ∨ a1 = 'I' := by
    rcases AuditDoc.toLowerChar_inv h1 with h | h
    · exact Or.inl h
    · right
      simpa [AuditDoc.lowerPairs] using h
  have ha2 : a2 = 'd' ∨ a2 = 'D' := by
    rcases AuditDoc.toLowerChar_inv h2 with h | h
    · exact Or.inl h
    · right
      simpa [AuditDoc.lowerPairs] using h
  have hidt : AuditDoc.idTryFrom (' ' :: a1 :: a2 :: "=\"CaRds\">".toList)
      (((' ' :: a1 :: a2 :: "=\"CaRds\">".toList).takeWhile
        (fun ch => !(ch = '>'))).length)
      = some ("CaRds".toList, []) := by
    rcases ha1 with rfl | rfl <;> rcases ha2 with rfl | rfl <;> decide
  rcases htag with hdiv | hsec
  · have hre : AuditDoc.ciPrefixRest ['d', 'i', 'v']
        (tag ++ ' ' :: a1 :: a2 :: "=\"CaRds\">".toList)
        = some (' ' :: a1 :: a2 :: "=\"CaRds\">".toList) := by
      have hmap := AuditDoc.ciPrefixRest_of_map tag
        (' ' :: a1 :: a2 :: "=\"CaRds\">".toList)
      rw [hdiv] at hmap
      exact hmap
    have hmt : AuditDoc.htmlMatchTag (tag ++ ' ' :: a1 :: a2 :: "=\"CaRds\">".toList)
        = some ("CaRds".toList, []) := by
      unfold AuditDoc.htmlMatchTag
      rw [hre]
      exact hidt
    unfold AuditDoc.extractDocumentationSectionsL
    rw [List.cons_append, List.length_cons, AuditDoc.htmlFindAllF_match hmt,
      AuditDoc.htmlFindAllF_nil]
    decide
  · rcases tag with _ | ⟨t1, tl⟩
    · rw [show ("section".toList : List Char) = 's' :: "ection".toList from rfl] at hsec
      simp at hsec
    · have hsplit : AuditDoc.toLowerChar t1 = 's' ∧
          tl.map AuditDoc.toLowerChar = "ection".toList := by
        rw [show ("section".toList : List Char) = 's' :: "ection".toList from rfl] at hsec
        simpa using hsec
      have hdfail : AuditDoc.ciPrefixRest ['d', 'i', 'v']
          ((t1 :: tl) ++ ' ' :: a1 :: a2 :: "=\"CaRds\">".toList) = none := by
        rw [List.cons_append]
        simp [AuditDoc.ciPrefixRest, hsplit.1]
      have hre : AuditDoc.ciPrefixRest ['s', 'e', 'c', 't', 'i', 'o', 'n']
          ((t1 :: tl) ++ ' ' :: a1 :: a2 :: "=\"CaRds\">".toList)
          = some (' ' :: a1 :: a2 :: "=\"CaRds\">".toList) := by
        have hmap := AuditDoc.ciPrefixRest_of_map (t1 :: tl)
          (' ' :: a1 :: a2 :: "=\"CaRds\">".toList)
        rw [hsec] at hmap
        exact hmap
      have hmt : AuditDoc.htmlMatchTag
          ((t1 :: tl) ++ ' ' :: a1 :: a2 :: "=\"CaRds\">".toList)
          = some ("CaRds".toList, []) := by
        unfold AuditDoc.htmlMatchTag
        rw [hdfail, hre]
        exact hidt
      unfold AuditDoc.extractDocumentationSectionsL
      rw [show '<' :: t1 :: tl ++ ' ' :: a1 :: a2 :: "=\"CaRds\">".toList
          = '<' :: ((t1 :: tl) ++ ' ' :: a1 :: a2 :: "=\"CaRds\">".toList) from rfl,
        List.length_cons, AuditDoc.htmlFindAllF_match hmt, AuditDoc.htmlFindAllF_nil]
      decide

/-- C10 witness: a mixed-case `SeCtIoN` tag with attribute `Id` yields the id
value `CaRds` exactly as written. -/
theorem c10_case_insensitive_extraction_witness :
    AuditDoc.extractDocumentationSectionsL
      ('<' :: "SeCtIoN".toList ++ ' ' :: 'I' :: 'd' :: "=\"CaRds\">".toList)
      = ["CaRds".toList] :=
  c10_case_insensitive_extraction.1 "SeCtIoN".toList 'I' 'd'
    (Or.inr (by decide)) (by decide)
